import Mathlib

/-!
Verification of the SE-Radio relay (server session / routing engine, codec
shims, client mixer) against its natural-language specification.

The Python source is embedded shallowly:

* Python floats are modelled as rationals (`ℚ`); `int(x)` truncation toward
  zero is `pyTrunc`.
* Python dicts are modelled as association lists with first-match lookup;
  `dict[k] = v` is `dictSet`, which overwrites in place or appends.
* `str.strip()` is `pyStrip` (drop leading and trailing whitespace);
  Python `str.isdigit` is modelled on the ASCII digits the program
  actually produces.
* `f"{n:04d}"` for the already-clamped range `0 ≤ n ≤ 9999` is modelled by
  extracting the four decimal digits directly (`fmt04`).
-/

/-- Python `int(q)` on a real number: truncation toward zero. -/
def pyTrunc (q : ℚ) : ℤ := if 0 ≤ q then ⌊q⌋ else ⌈q⌉

/-- Python `str.strip()`: drop leading and trailing whitespace. -/
def pyStrip (s : String) : String :=
  String.mk (((s.toList.dropWhile Char.isWhitespace).reverse.dropWhile Char.isWhitespace).reverse)

/-- Decimal value of a list of digit characters (most significant first),
as read by Python `int(...)` on an all-digit string. -/
def digitsToNat (l : List Char) : ℕ :=
  l.foldl (fun a c => 10 * a + (c.toNat - 48)) 0

/-- Python `f"{n:04d}"` for `0 ≤ n ≤ 9999`: the four decimal digits of `n`,
zero padded. -/
def fmt04 (n : ℕ) : String :=
  String.mk [Nat.digitChar (n / 1000 % 10), Nat.digitChar (n / 100 % 10),
    Nat.digitChar (n / 10 % 10), Nat.digitChar (n % 10)]

/-- `Session._freq_suffix` (session_mgr.py): multiply the MHz frequency by
10, truncate to int, clamp to [0, 9999], format as 4 digits. -/
def freqSuffix (freq : ℚ) : String :=
  let n := pyTrunc (freq * 10)
  let n := if n < 0 then 0 else n
  let n := if 9999 < n then 9999 else n
  fmt04 n.toNat

/-- Server-side `Session` state (session_mgr.py). The four per-channel
network prefixes are assigned once at session creation (random 3-letter
strings in the source) and the source maintains the invariant that
`freqs`, `scan_channels` and `net_prefixes` always hold exactly 4 slots. -/
structure Session where
  ssrc : ℤ
  active_channel : ℤ
  freqs : List ℚ
  scan_channels : List Bool
  net_prefixes : List String
  last_seen : ℚ
  loopback : Bool
deriving DecidableEq

/-- Per-channel network ids from `Session.compute_networks`:
`net_prefixes[i] + _freq_suffix(freqs[i])` for i = 0..3. -/
def netIds (s : Session) : List String :=
  (List.range 4).map (fun i => s.net_prefixes.getD i "" ++ freqSuffix (s.freqs.getD i 0))

/-- Clamp of the active-channel index used throughout the source:
`max(0, min(3, int(active_channel)))`, as a list index. -/
def clamp03 (i : ℤ) : ℕ := (max 0 (min 3 i)).toNat

/-- `active_net` from `Session.compute_networks`: the net id of the clamped
active channel. -/
def activeNet (s : Session) : String := (netIds s).getD (clamp03 s.active_channel) ""

/-- First-match association-list lookup, modelling Python dict lookup
(`self.net_alias[cur]`, guarded by `cur in self.net_alias`). -/
def aliasLookup (d : List (String × String)) (k : String) : Option String :=
  (d.find? (fun e => e.1 == k)).map (fun e => e.2)

/-- Python `dict[k] = v`: overwrite the value at an existing key, otherwise
append the new pair (dict insertion order). -/
def dictSet (d : List (String × String)) (k v : String) : List (String × String) :=
  if d.any (fun e => e.1 == k) then d.map (fun e => if e.1 == k then (k, v) else e)
  else d ++ [(k, v)]

/-- `SessionManager._freq_suffix_from_net`: take the last 4 characters of
the stripped id; they must be digits with a strictly positive value;
renormalise to `f"{val:04d}"`. -/
def freqSuffixFromNet (nid : String) : Option String :=
  let t := pyStrip nid
  if t.length < 4 then none
  else
    let suf := t.toList.drop (t.length - 4)
    if suf.all Char.isDigit then
      let val := digitsToNat suf
      if val = 0 then none else some (fmt04 val)
    else none

/-- Rendering of `f"{mhz:.1f}".rstrip("0").rstrip(".")` for `mhz = v / 10`
with `0 ≤ v ≤ 9999`: drop the decimal point when the tenths digit is 0. -/
def fmtTenths (v : ℕ) : String :=
  if v % 10 = 0 then toString (v / 10)
  else toString (v / 10) ++ "." ++ toString (v % 10)

/-- `SessionManager._auto_canon_for_suffix`: parse the 4-digit suffix back
to a number and render `FREQ-<mhz>`; on a parse failure the suffix itself
is kept (unreachable for the suffixes `_freq_suffix_from_net` produces). -/
def autoCanonForSuffix (suffix : String) : String :=
  if suffix.toList.all Char.isDigit then
    "FREQ-" ++ fmtTenths (digitsToNat suffix.toList)
  else "FREQ-" ++ suffix

theorem length_filter_mono {α : Type} (l : List α) (p q : α → Bool)
    (h : ∀ a, p a = true → q a = true) :
    (l.filter p).length ≤ (l.filter q).length := by
  induction l with
  | nil => simp
  | cons b t ih =>
    by_cases hb : p b = true
    · simp [List.filter_cons, hb, h b hb]
      omega
    · simp only [List.filter_cons]
      rw [Bool.not_eq_true] at hb
      rw [hb]
      by_cases hq : q b = true
      · simp [hq]; omega
      · rw [Bool.not_eq_true] at hq
        rw [hq]
        simpa using ih

theorem length_filter_notMem_cons_lt {α : Type} [DecidableEq α]
    (l : List α) (seen : List α) (a : α) (hmem : a ∈ l) (hns : a ∉ seen) :
    (l.filter (fun k => decide (¬ k ∈ a :: seen))).length <
      (l.filter (fun k => decide (¬ k ∈ seen))).length := by
  induction l with
  | nil => cases hmem
  | cons b t ih =>
    by_cases hba : b = a
    · subst hba
      have hmono : (t.filter (fun k => decide (¬ k ∈ b :: seen))).length ≤
          (t.filter (fun k => decide (¬ k ∈ seen))).length := by
        refine length_filter_mono t _ _ (fun x hx => ?_)
        simp only [decide_eq_true_eq] at hx ⊢
        exact fun hxs => hx (List.mem_cons_of_mem _ hxs)
      simp only [List.filter_cons]
      have h1 : (decide (¬ b ∈ b :: seen)) = false := by simp
      have h2 : (decide (¬ b ∈ seen)) = true := by simpa using hns
      rw [h1, h2]
      simpa using Nat.lt_succ_of_le hmono
    · have hmem' : a ∈ t := by
        rcases List.mem_cons.mp hmem with h | h
        · exact absurd h.symm hba
        · exact h
      have heq : (decide (¬ b ∈ a :: seen)) = (decide (¬ b ∈ seen)) := by
        by_cases hbs : b ∈ seen
        · simp [hbs]
        · simp [hbs, hba]
      simp only [List.filter_cons, heq]
      by_cases hbs : (decide (¬ b ∈ seen)) = true
      · rw [hbs]; simpa using Nat.succ_lt_succ (ih hmem')
      · rw [Bool.not_eq_true] at hbs
        rw [hbs]
        simpa using ih hmem'

/-- The alias-chasing loop of `SessionManager.canonical_net`:
`while cur in net_alias and cur not in seen: seen.add(cur); cur = net_alias[cur]`.
The returned first component is the final `seen` (visited ids, most recent
first, on top of the initial `seen`); the second is the final `cur`.
Termination: every visited id is a key of the alias table and `seen` only
grows, so the number of keys outside `seen` strictly decreases. -/
def walk (d : List (String × String)) (seen : List String) (cur : String) :
    List String × String :=
  match h : aliasLookup d cur with
  | some nxt =>
    if hs : cur ∈ seen then (seen, cur)
    else walk d (cur :: seen) nxt
  | none => (seen, cur)
termination_by ((d.map Prod.fst).filter (fun k => decide (¬ k ∈ seen))).length
decreasing_by
  have hk : cur ∈ d.map Prod.fst := by
    unfold aliasLookup at h
    rcases Option.map_eq_some'.mp h with ⟨e, he, _⟩
    have hmem := List.mem_of_find?_eq_some he
    have hp := List.find?_some he
    have : e.1 = cur := by simpa using hp
    exact this ▸ List.mem_map_of_mem Prod.fst hmem
  exact length_filter_notMem_cons_lt _ seen cur hk hs

/-- Server routing state (the parts of `SessionManager` the routing engine
reads): the session table keyed by SSRC, the manual alias table, and the
auto-merge-by-frequency flag. -/
structure SessionManager where
  by_ssrc : List (ℤ × Session)
  net_alias : List (String × String)
  auto_merge_by_freq : Bool

/-- The body of `SessionManager.canonical_net` as a pure function of the
id, the alias table and the auto-merge flag: strip the id, return "" for
an empty id, follow the manual alias chain with a visited set, and, when
auto-merge-by-frequency is on and no manual alias applied, substitute the
synthetic `FREQ-<mhz>` id for a positive frequency suffix.
`had_manual_alias` is true exactly when the while loop ran at least once,
i.e. when the visited set is non-empty. -/
def canonicalAux (d : List (String × String)) (auto : Bool) (nid : String) : String :=
  let t := pyStrip nid
  if t = "" then ""
  else
    let w := walk d [] t
    let hadManual := !(w.1.isEmpty)
    if auto && !hadManual then
      match freqSuffixFromNet w.2 with
      | some suf => autoCanonForSuffix suf
      | none => w.2
    else w.2

/-- `SessionManager.canonical_net`, reading the manager's alias table and
auto-merge flag. -/
def canonical_net (st : SessionManager) (nid : String) : String :=
  canonicalAux st.net_alias st.auto_merge_by_freq nid

/-- `SessionManager.merge_net`: strip both ids; no-op when either is empty
or they coincide; otherwise record `alias[src] = canonical_net(dst)`. -/
def merge_net (st : SessionManager) (src dst : String) : SessionManager :=
  let s := pyStrip src
  let d := pyStrip dst
  if s = "" ∨ d = "" ∨ s = d then st
  else ⟨st.by_ssrc, dictSet st.net_alias s (canonical_net st d), st.auto_merge_by_freq⟩

/-- Python `self.by_ssrc.get(key)`. -/
def lookupSsrc (m : List (ℤ × Session)) (k : ℤ) : Option Session :=
  (m.find? (fun e => e.1 == k)).map (fun e => e.2)

/-- Per-channel scan flag of a receiver, as read by
`audio_recipients_for`: `scan_channels[idx]` when the list is long enough,
otherwise False. -/
def scanFlagAt (s : Session) (i : ℕ) : Bool := s.scan_channels.getD i false

/-- Indices (in increasing order) of the receiver's channels whose
canonical net id equals the sender's canonical channel net
(`match_idxs` in `audio_recipients_for`). -/
def matchIdxs (st : SessionManager) (other : Session) (target : String) : List ℕ :=
  (List.range 4).filter (fun i => canonical_net st ((netIds other).getD i "") == target)

/-- The `deliver_idx` selection loop of `audio_recipients_for`: scan the
matching channel indices in order; an active-channel match wins
immediately; otherwise the first scan-enabled match is kept. -/
def deliverLoop (other : Session) : List ℕ → Option ℕ → Option ℕ
  | [], acc => acc
  | idx :: rest, acc =>
      if other.active_channel == Int.ofNat idx then some idx
      else if scanFlagAt other idx && acc.isNone then deliverLoop other rest (some idx)
      else deliverLoop other rest acc

/-- The per-receiver body of the `for other in by_ssrc.values()` loop of
`audio_recipients_for`: skip the sender's own entry, skip entries outside
the 15 s activity window, skip entries with no matching channel, and
otherwise attach the delivery channel index chosen by the selection
loop. -/
def recipEntry (st : SessionManager) (now : ℚ) (ssrc : ℤ) (target : String)
    (e : ℤ × Session) : Option ((ℤ × Session) × ℕ) :=
  if e.1 == ssrc then none
  else if 15 < now - e.2.last_seen then none
  else
    let mi := matchIdxs st e.2 target
    if mi.isEmpty then none
    else (deliverLoop e.2 mi none).map (fun j => (e, j))

/-- `SessionManager.audio_recipients_for(ssrc)`. Returns
`(recipients, sender_active_net, chan_idx, sender_chan_net)`.
The Python dict iteration over `by_ssrc.values()` visits each (key, object)
entry once, so a recipient is modelled as the `(key, session)` entry
paired with the matched receiver channel index; the `id(other) not in
seen` guard of the source is subsumed because each entry is visited once.
`now` (the Python `time()` call) is an explicit argument. -/
def audio_recipients_for (st : SessionManager) (now : ℚ) (ssrc : ℤ) :
    List ((ℤ × Session) × ℕ) × String × ℕ × String :=
  match lookupSsrc st.by_ssrc ssrc with
  | none => ([], "", 0, "")
  | some sender =>
    let ids := netIds sender
    let chan_idx := clamp03 sender.active_channel
    let sender_active_net := canonical_net st (activeNet sender)
    let sender_chan_net := canonical_net st (ids.getD chan_idx "")
    if sender_chan_net = "" then ([], sender_active_net, chan_idx, sender_chan_net)
    else
      let base := st.by_ssrc.filterMap (recipEntry st now ssrc sender_chan_net)
      let recips := if sender.loopback then base ++ [((ssrc, sender), chan_idx)] else base
      (recips, sender_active_net, chan_idx, sender_chan_net)

/-- The recipient-channel choice exactly as the specification words it:
among the receiver's matching channels, the receiver's own active channel
when it matches, otherwise the first (lowest-index) matching channel with
its per-channel scan flag enabled; none when no matching channel
qualifies. -/
def claimDeliver (st : SessionManager) (other : Session) (target : String) : Option ℕ :=
  match (matchIdxs st other target).find? (fun i => other.active_channel == Int.ofNat i) with
  | some i => some i
  | none => (matchIdxs st other target).find? (fun i => scanFlagAt other i)

/-- IEEE-754 binary32 values as seen by the tolerant decoder: NaN,
infinities, or an exact rational. -/
inductive F32 where
  | nan : F32
  | inf : Bool → F32
  | num : ℚ → F32
deriving DecidableEq

/-- Decode 4 little-endian bytes as an IEEE-754 binary32 value. -/
def f32OfBytes (b0 b1 b2 b3 : ℕ) : F32 :=
  let bits : ℕ := b0 + 256 * b1 + 65536 * b2 + 16777216 * b3
  let neg : Bool := bits / 2 ^ 31 == 1
  let e : ℕ := bits / 2 ^ 23 % 256
  let m : ℕ := bits % 2 ^ 23
  if e = 255 then
    if m = 0 then F32.inf neg else F32.nan
  else
    let mag : ℚ :=
      if e = 0 then (m : ℚ) * (2 : ℚ) ^ (-(149 : ℤ))
      else ((2 ^ 23 + m : ℕ) : ℚ) * (2 : ℚ) ^ ((e : ℤ) - 150)
    F32.num (if neg then -mag else mag)

/-- Chunk a list into consecutive groups of `c` elements (numpy
`reshape(-1, c)` on a list whose length is a multiple of `c`). -/
def chunkList {α : Type} (c : ℕ) : List α → List (List α)
  | [] => []
  | l => if h : 0 < c ∧ c ≤ l.length then (l.take c) :: chunkList c (l.drop c) else [l]
termination_by l => l.length
decreasing_by
  simp only [List.length_drop]
  omega

/-- numpy `mean(axis=1)` over float32 rows, idealised over exact
rationals: NaN propagates, infinities of one sign give that infinity,
mixed signs give NaN. -/
def meanF32 (l : List F32) : F32 :=
  if l.any (fun x => x == F32.nan) then F32.nan
  else if l.any (fun x => x == F32.inf true) then
    if l.any (fun x => x == F32.inf false) then F32.nan else F32.inf true
  else if l.any (fun x => x == F32.inf false) then F32.inf false
  else
    F32.num ((l.foldl (fun a x => a + match x with | F32.num q => q | _ => 0) (0 : ℚ)) / (l.length : ℚ))

/-- numpy `clip(x, -1.0, 1.0)`: NaN stays NaN, infinities clamp to the
bounds, finite values clamp into [-1, 1]. -/
def clipF32 : F32 → F32
  | F32.nan => F32.nan
  | F32.inf true => F32.num (-1)
  | F32.inf false => F32.num 1
  | F32.num q => F32.num (max (-1) (min 1 q))

/-- Signed little-endian int16 values of a byte list (pairs of bytes). -/
def bytesToI16 : List ℕ → List ℤ
  | b0 :: b1 :: rest =>
      (let v := b0 + 256 * b1
       if v < 32768 then (v : ℤ) else (v : ℤ) - 65536) :: bytesToI16 rest
  | _ => []

/-- IEEE binary32 values of a byte list (groups of four bytes). -/
def bytesToF32 : List ℕ → List F32
  | b0 :: b1 :: b2 :: b3 :: rest => f32OfBytes b0 b1 b2 b3 :: bytesToF32 rest
  | _ => []

/-- numpy `mean(axis=1).astype(int16)` over int16 rows: exact mean then
truncation toward zero. -/
def truncMeanI16 (l : List ℤ) : ℤ :=
  pyTrunc (((l.foldl (fun a x => a + x) 0 : ℤ) : ℚ) / (l.length : ℚ))

/-- The float32 branch of `OpusDecoder.decode_to_float32` (server
opus_shim.py): reinterpret as little-endian float32, downmix interleaved
channels by averaging when the instance is multi-channel and the length
divides evenly, then clip to [-1, 1]. -/
def floatPath (channels : ℕ) (data : List ℕ) : List F32 :=
  let pcm := bytesToF32 data
  let pcm := if 1 < channels ∧ pcm.length % channels = 0
    then (chunkList channels pcm).map meanF32 else pcm
  pcm.map clipF32

/-- The int16 branch of `OpusDecoder.decode_to_float32`: reinterpret as
little-endian int16, downmix by (truncated) averaging when multi-channel,
then scale by 1/32767 to float. Note: this branch applies no clip. -/
def intPath (channels : ℕ) (data : List ℕ) : List F32 :=
  let p := bytesToI16 data
  let p := if 1 < channels ∧ p.length % channels = 0
    then (chunkList channels p).map truncMeanI16 else p
  p.map (fun v => F32.num ((v : ℚ) / 32767))

/-- The trailing-byte trimming loop of `decode_to_float32`: for
`drop in (1, 2, 3)`, stop with an error when nothing is left, else try
float32 alignment first, then int16 alignment. -/
def trimLoop (channels : ℕ) (data : List ℕ) (n : ℕ) : List ℕ → Option (List F32)
  | [] => none
  | drop :: rest =>
      let m := n - drop
      if m = 0 then none
      else if m % 4 = 0 then some (floatPath channels (data.take m))
      else if m % 2 = 0 then some (intPath channels (data.take m))
      else trimLoop channels data n rest

/-- `OpusDecoder.decode_to_float32` (server opus_shim.py): empty input
gives an empty array; a length divisible by 4 decodes as float32; an even
length decodes as int16; otherwise up to 3 trailing bytes are dropped,
preferring float32 alignment; exhausting every option raises (`none`).
The numpy `frombuffer` calls cannot fail once the length check passed, so
the `try/except` wrappers of the source are dead and not modelled. -/
def decode_to_float32 (channels : ℕ) (data : List ℕ) : Option (List F32) :=
  if data.isEmpty then some []
  else
    let n := data.length
    if n % 4 = 0 then some (floatPath channels data)
    else if n % 2 = 0 then some (intPath channels data)
    else trimLoop channels data n [1, 2, 3]

/-- The client decoder cache `OpusShim._decoders` (client opus_shim.py),
an insertion-ordered dict from sender key to decoder instance; the decoder
instances themselves carry no state relevant here. -/
def getDecoderCache (cache : List (ℤ × Unit)) : Option ℤ → List (ℤ × Unit)
  | none => cache
  | some key =>
      if ((cache.find? (fun e => e.1 == key)).map (fun e => e.2)).isSome then cache
      else
        let c := cache ++ [(key, ())]
        if 32 < c.length then
          match c.head? with
          | some old => if old.1 ≠ key then c.eraseP (fun e => e.1 == old.1) else c
          | none => c
        else c

/-- Client mixer state (app.py): the active channel variable, the three
A-C scan checkboxes, the three A-C volume sliders and the channel-D volume
slider. Channel D's scan checkbox is disabled and locked to True in the
source, so it carries no state. -/
structure MixState where
  active_chan : ℤ
  scan_vars : List Bool
  chan_vol_vars : List ℤ
  chan_d_vol_var : ℤ

/-- `_snap_10` (app.py): clamp to [0, 100] after flooring to a multiple
of 10 (Python `//` is floor division). -/
def snap10 (v : ℤ) : ℤ := max 0 (min 100 (Int.fdiv v 10 * 10))

/-- `_snap_10_min30` (app.py). -/
def snap10min30 (v : ℤ) : ℤ := max 30 (snap10 v)

/-- The `_gain` helper of `get_channel_volume`: 0-50% maps linearly to
[0, 1], 51-100% to (1, 2]. -/
def gainPct (pct : ℤ) : ℚ :=
  let p := max 0 (min 100 pct)
  if p ≤ 50 then (p : ℚ) / 50 else 1 + ((p - 50 : ℤ) : ℚ) / 50

/-- `RadioApp.channel_is_audible` (app.py): channels 0-2 are audible when
active or scan-enabled; channel 3 (D) is always audible; anything else is
not. -/
def channel_is_audible (st : MixState) (idx : ℤ) : Bool :=
  if 0 ≤ idx ∧ idx < 3 then (idx == st.active_chan) || st.scan_vars.getD idx.toNat false
  else idx == 3

/-- `RadioApp.get_channel_volume` (app.py): snap the slider value, then
apply the piecewise-linear gain; channel D has a 30% floor; other indices
give unity gain. -/
def get_channel_volume (st : MixState) (idx : ℤ) : ℚ :=
  if 0 ≤ idx ∧ idx < 3 then gainPct (snap10 (st.chan_vol_vars.getD idx.toNat 0))
  else if idx == 3 then gainPct (snap10min30 st.chan_d_vol_var)
  else 1

/-- One collected frame of a dequeued batch in `_dequeue_rx_frame`:
the normalised sample buffer and the tagged receiver channel index. -/
structure RxFrame where
  buf : List ℚ
  chan_idx : Option ℤ

/-- numpy `mix[:len(arr)] += arr * gain`: add the scaled buffer into the
prefix of the accumulator. -/
def addScaled (mix arr : List ℚ) (g : ℚ) : List ℚ :=
  (List.zipWith (fun m a => m + a * g) mix arr) ++ mix.drop arr.length

/-- The per-frame body of the mixing loop in `_dequeue_rx_frame`
(app.py): skip a tagged frame whose channel is not audible, otherwise add
`arr * get_channel_volume(chan_idx)` into the accumulator; an untagged
frame uses the active channel's volume. -/
def mixStep (st : MixState) (mix : List ℚ) (fr : RxFrame) : List ℚ :=
  match fr.chan_idx with
  | some c =>
      if channel_is_audible st c then addScaled mix fr.buf (get_channel_volume st c)
      else mix
  | none => addScaled mix fr.buf (get_channel_volume st st.active_chan)

/-- The scan flag the specification attributes to a channel on the client:
the A-C checkboxes for channels 0-2, and the locked-True channel-D
checkbox for channel 3. -/
def scanFlagClient (st : MixState) (c : ℤ) : Bool :=
  if c < 3 then st.scan_vars.getD c.toNat false else true

theorem walk_none (d : List (String × String)) (seen : List String) (cur : String)
    (h : aliasLookup d cur = none) : walk d seen cur = (seen, cur) := by
  rw [walk]
  split
  · rename_i h2
    rw [h] at h2
    cases h2
  · rfl

theorem walk_mem (d : List (String × String)) (seen : List String) (cur : String)
    (h : cur ∈ seen) : walk d seen cur = (seen, cur) := by
  rw [walk]
  split
  · simp [h]
  · rfl

theorem walk_step (d : List (String × String)) (seen : List String) (cur nxt : String)
    (h : aliasLookup d cur = some nxt) (hs : ¬ cur ∈ seen) :
    walk d seen cur = walk d (cur :: seen) nxt := by
  rw [walk]
  split
  · rename_i h2
    rw [h] at h2
    cases h2
    simp [hs]
  · rename_i h2
    rw [h] at h2
    cases h2

/-- A path through the alias table: `AliasChain d a vis b` says the walk
starting at `a` visits exactly the ids in `vis` (in order) following
`aliasLookup` steps and is then positioned at `b`. -/
inductive AliasChain (d : List (String × String)) : String → List String → String → Prop
  | nil (c : String) : AliasChain d c [] c
  | cons (a x b : String) (l : List String) (h : aliasLookup d a = some x)
      (t : AliasChain d x l b) : AliasChain d a (a :: l) b

theorem walk_chain_spec (d : List (String × String)) :
    ∀ (seen : List String) (cur : String) (fin : List String) (r : String),
      walk d seen cur = (fin, r) →
      ∃ vis, AliasChain d cur vis r ∧ fin = vis.reverse ++ seen ∧ vis.Nodup ∧
        (∀ v ∈ vis, v ∉ seen) ∧ (aliasLookup d r = none ∨ r ∈ fin) := by
  intro seen cur
  induction seen, cur using walk.induct d with
  | case1 seen cur nxt h hmem =>
    intro fin r hw
    rw [walk_mem d seen cur hmem] at hw
    cases hw
    refine ⟨[], AliasChain.nil cur, by simp, List.nodup_nil, by simp, Or.inr hmem⟩
  | case2 seen cur nxt h hmem ih =>
    intro fin r hw
    rw [walk_step d seen cur nxt h hmem] at hw
    rcases ih fin r hw with ⟨vis, hchain, hfin, hnd, hfresh, hstop⟩
    refine ⟨cur :: vis, AliasChain.cons cur nxt r vis h hchain, ?_, ?_, ?_, hstop⟩
    · rw [hfin]
      simp
    · refine List.nodup_cons.mpr ⟨?_, hnd⟩
      intro hcv
      exact (hfresh cur hcv) (List.mem_cons_self cur seen)
    · intro v hv
      rcases List.mem_cons.mp hv with h1 | h1
      · exact h1 ▸ hmem
      · exact fun hvs => (hfresh v h1) (List.mem_cons_of_mem _ hvs)
  | case3 seen cur h =>
    intro fin r hw
    rw [walk_none d seen cur h] at hw
    cases hw
    exact ⟨[], AliasChain.nil cur, by simp, List.nodup_nil, by simp, Or.inl h⟩

theorem chain_mem_tail {d : List (String × String)} {a : String} {l : List String}
    {b : String} (hc : AliasChain d a l b) :
    ∀ x ∈ l, ∃ l2, AliasChain d x (x :: l2) b ∧ (x :: l2).Sublist l := by
  induction hc with
  | nil c => intro x hx; cases hx
  | cons a x' b l' h t ih =>
    intro x hx
    rcases List.mem_cons.mp hx with h1 | h1
    · subst h1
      exact ⟨l', AliasChain.cons x x' b l' h t, List.Sublist.refl _⟩
    · rcases ih x h1 with ⟨l2, hc2, hsub⟩
      exact ⟨l2, hc2, hsub.trans (List.sublist_cons_self a l')⟩

theorem aliasLookup_eq_none_iff (d : List (String × String)) (k : String) :
    aliasLookup d k = none ↔ ∀ e ∈ d, e.1 ≠ k := by
  unfold aliasLookup
  rw [Option.map_eq_none']
  rw [List.find?_eq_none]
  constructor
  · intro h e he
    have := h e he
    simpa using this
  · intro h e he
    simpa using h e he

theorem aliasLookup_cons (e : String × String) (t : List (String × String)) (k : String) :
    aliasLookup (e :: t) k = if e.1 == k then some e.2 else aliasLookup t k := by
  unfold aliasLookup
  rw [List.find?_cons]
  by_cases h : e.1 == k
  · rw [h]; simp
  · rw [Bool.not_eq_true] at h
    rw [h]
    simp

theorem aliasLookup_map_replace_self (d : List (String × String)) (p v : String)
    (hany : d.any (fun e => e.1 == p) = true) :
    aliasLookup (d.map (fun e => if e.1 == p then (p, v) else e)) p = some v := by
  induction d with
  | nil => simp at hany
  | cons e t ih =>
    simp only [List.map_cons, aliasLookup_cons]
    by_cases he : (e.1 == p) = true
    · simp [he]
    · rw [Bool.not_eq_true] at he
      have ht : t.any (fun e => e.1 == p) = true := by
        rcases List.any_eq_true.mp hany with ⟨y, hy, hpy⟩
        rcases List.mem_cons.mp hy with h1 | h1
        · subst h1; rw [he] at hpy; cases hpy
        · exact List.any_eq_true.mpr ⟨y, h1, hpy⟩
      simpa [he] using ih ht

theorem aliasLookup_map_replace_ne (d : List (String × String)) (p v x : String)
    (hx : x ≠ p) :
    aliasLookup (d.map (fun e => if e.1 == p then (p, v) else e)) x = aliasLookup d x := by
  induction d with
  | nil => rfl
  | cons e t ih =>
    simp only [List.map_cons, aliasLookup_cons]
    by_cases he : (e.1 == p) = true
    · have hep : e.1 = p := eq_of_beq he
      have h1 : (p == x) = false :=
        beq_eq_false_iff_ne.mpr (fun hc => hx hc.symm)
      simpa [he, hep, h1] using ih
    · rw [Bool.not_eq_true] at he
      by_cases hex : (e.1 == x) = true
      · simp [he, hex]
      · rw [Bool.not_eq_true] at hex
        simpa [he, hex] using ih

theorem aliasLookup_dictSet_self (d : List (String × String)) (p v : String) :
    aliasLookup (dictSet d p v) p = some v := by
  unfold dictSet
  by_cases hany : d.any (fun e => e.1 == p) = true
  · rw [if_pos hany]
    exact aliasLookup_map_replace_self d p v hany
  · rw [if_neg hany]
    unfold aliasLookup
    rw [List.find?_append]
    have hnone : d.find? (fun e => e.1 == p) = none := by
      rw [List.find?_eq_none]
      intro e he
      exact fun hc => hany (List.any_eq_true.mpr ⟨e, he, hc⟩)
    rw [hnone]
    simp

theorem aliasLookup_dictSet_ne (d : List (String × String)) (p v x : String)
    (hx : x ≠ p) : aliasLookup (dictSet d p v) x = aliasLookup d x := by
  unfold dictSet
  by_cases hany : d.any (fun e => e.1 == p) = true
  · rw [if_pos hany]
    exact aliasLookup_map_replace_ne d p v x hx
  · rw [if_neg hany]
    unfold aliasLookup
    rw [List.find?_append]
    have hx2 : List.find? (fun e => e.1 == x) [(p, v)] = none := by
      rw [List.find?_eq_none]
      intro e he
      rw [List.mem_singleton] at he
      subst he
      exact fun hc => hx (eq_of_beq hc).symm
    rw [hx2]
    simp

theorem chain_stop (d d1 : List (String × String)) (p : String)
    (hagree : ∀ x, x ≠ p → aliasLookup d1 x = aliasLookup d x) :
    ∀ (c : String) (l : List String) (z : String),
      AliasChain d c l z →
      ∀ S : List String, (∀ v ∈ l, v ∉ S ∧ v ≠ p) → l.Nodup → (z ∈ l ∨ z ∈ S) →
      (walk d1 S c).2 = z := by
  intro c l z hchain
  induction hchain with
  | nil c =>
    intro S hfresh hnd hz
    rcases hz with h | h
    · cases h
    · rw [walk_mem d1 S c h]
  | cons a x b l' h t ih =>
    intro S hfresh hnd hz
    have ha : a ∉ S ∧ a ≠ p := hfresh a (List.mem_cons_self a l')
    have hlk : aliasLookup d1 a = some x := by rw [hagree a ha.2]; exact h
    rw [walk_step d1 S a x hlk ha.1]
    refine ih (a :: S) ?_ (List.nodup_cons.mp hnd).2 ?_
    · intro v hv
      have hv2 := hfresh v (List.mem_cons_of_mem _ hv)
      refine ⟨?_, hv2.2⟩
      intro hvc
      rcases List.mem_cons.mp hvc with h1 | h1
      · exact (List.nodup_cons.mp hnd).1 (h1 ▸ hv)
      · exact hv2.1 h1
    · rcases hz with h1 | h1
      · rcases List.mem_cons.mp h1 with h2 | h2
        · exact Or.inr (h2 ▸ List.mem_cons_self a S)
        · exact Or.inl h2
      · exact Or.inr (List.mem_cons_of_mem _ h1)

theorem walk_set_stable (d : List (String × String)) (p r : String) :
    ∀ (seen : List String) (cur : String), p ∉ seen →
      (walk d seen cur).2 = r → (walk (dictSet d p r) seen cur).2 = r := by
  have hagree : ∀ x, x ≠ p → aliasLookup (dictSet d p r) x = aliasLookup d x :=
    fun x hx => aliasLookup_dictSet_ne d p r x hx
  intro seen cur
  induction seen, cur using walk.induct d with
  | case1 seen cur nxt h hmem =>
    intro hp hr
    rw [walk_mem d seen cur hmem] at hr
    rw [walk_mem (dictSet d p r) seen cur hmem]
    exact hr
  | case2 seen cur nxt h hmem ih =>
    intro hp hr
    rw [walk_step d seen cur nxt h hmem] at hr
    by_cases hcp : cur = p
    · subst hcp
      have hlk : aliasLookup (dictSet d cur r) cur = some r :=
        aliasLookup_dictSet_self d cur r
      rw [walk_step (dictSet d cur r) seen cur r hlk hmem]
      have hw : walk d (cur :: seen) nxt = ((walk d (cur :: seen) nxt).1, r) := by
        rw [← hr]
      rcases walk_chain_spec d (cur :: seen) nxt _ r hw with
        ⟨vis, hchain, hfin, hnd, hfresh, hstop⟩
      by_cases hrs : r ∈ cur :: seen
      · rw [walk_mem (dictSet d cur r) (cur :: seen) r hrs]
      · rcases hstop with h1 | h1
        · have : aliasLookup (dictSet d cur r) r = none := by
            rw [hagree r (fun hc => hrs (hc ▸ List.mem_cons_self cur seen))]
            exact h1
          rw [walk_none (dictSet d cur r) (cur :: seen) r this]
        · have hrv : r ∈ vis := by
            rw [hfin] at h1
            rcases List.mem_append.mp h1 with h2 | h2
            · exact List.mem_reverse.mp h2
            · exact absurd h2 hrs
          rcases chain_mem_tail hchain r hrv with ⟨l2, hc2, hsub⟩
          refine chain_stop d (dictSet d cur r) cur hagree r (r :: l2) r hc2
            (cur :: seen) ?_ (hsub.nodup hnd) (Or.inl (List.mem_cons_self r l2))
          intro v hv
          have hvv : v ∈ vis := hsub.mem hv
          have hns : v ∉ cur :: seen := hfresh v hvv
          exact ⟨hns, fun hc => hns (hc ▸ List.mem_cons_self cur seen)⟩
    · have hlk : aliasLookup (dictSet d p r) cur = some nxt := by
        rw [hagree cur hcp]; exact h
      rw [walk_step (dictSet d p r) seen cur nxt hlk hmem]
      refine ih ?_ hr
      intro hc
      rcases List.mem_cons.mp hc with h1 | h1
      · exact hcp h1.symm
      · exact hp h1
  | case3 seen cur h =>
    intro hp hr
    rw [walk_none d seen cur h] at hr
    simp only at hr
    subst hr
    by_cases hcp : cur = p
    · subst hcp
      have hlk : aliasLookup (dictSet d cur cur) cur = some cur :=
        aliasLookup_dictSet_self d cur cur
      rw [walk_step (dictSet d cur cur) seen cur cur hlk hp]
      rw [walk_mem (dictSet d cur cur) (cur :: seen) cur (List.mem_cons_self cur seen)]
    · have : aliasLookup (dictSet d p cur) cur = none := by
        rw [hagree cur hcp]; exact h
      rw [walk_none (dictSet d p cur) seen cur this]

theorem dropWhile_head_false {α : Type} (p : α → Bool) (l : List α) (a : α) (t : List α)
    (h : List.dropWhile p l = a :: t) : p a = false := by
  induction l with
  | nil => cases h
  | cons c r ih =>
    rw [List.dropWhile_cons] at h
    by_cases hc : p c = true
    · rw [if_pos hc] at h
      exact ih h
    · rw [Bool.not_eq_true] at hc
      rw [hc] at h
      simp only [Bool.false_eq_true, if_false] at h
      cases h
      exact hc

theorem dropWhile_append_singleton {α : Type} (p : α → Bool) (l : List α) (a : α)
    (h : p a = false) :
    List.dropWhile p (l ++ [a]) = List.dropWhile p l ++ [a] := by
  induction l with
  | nil => simp [List.dropWhile_cons, h]
  | cons c r ih =>
    rw [List.cons_append, List.dropWhile_cons, List.dropWhile_cons]
    by_cases hc : p c = true
    · rw [if_pos hc, if_pos hc]
      exact ih
    · rw [Bool.not_eq_true] at hc
      rw [hc]
      simp

theorem dropWhile_idem {α : Type} (p : α → Bool) (l : List α) :
    List.dropWhile p (List.dropWhile p l) = List.dropWhile p l := by
  cases h : List.dropWhile p l with
  | nil => rfl
  | cons a t =>
    rw [List.dropWhile_cons, dropWhile_head_false p l a t h]
    simp

theorem pyStrip_idem (s : String) : pyStrip (pyStrip s) = pyStrip s := by
  unfold pyStrip
  have htl : ∀ l : List Char, (String.mk l).toList = l := fun l => rfl
  rw [htl]
  set L := s.toList with hL
  set A := L.dropWhile Char.isWhitespace with hA
  set M := A.reverse.dropWhile Char.isWhitespace with hM
  have hB : List.dropWhile Char.isWhitespace M.reverse.reverse = M.reverse.reverse := by
    rw [List.reverse_reverse, hM]
    exact dropWhile_idem _ _
  have hAiethen : List.dropWhile Char.isWhitespace M.reverse = M.reverse := by
    cases hA2 : A with
    | nil =>
      have : M = [] := by rw [hM, hA2]; rfl
      rw [this]
      rfl
    | cons a A2 =>
      have ha : Char.isWhitespace a = false := dropWhile_head_false _ L a A2 (hA ▸ hA2)
      have hMr : M = A2.reverse.dropWhile Char.isWhitespace ++ [a] := by
        rw [hM, hA2, List.reverse_cons]
        exact dropWhile_append_singleton _ _ a ha
      rw [hMr, List.reverse_append]
      simp only [List.reverse_cons, List.reverse_nil, List.nil_append, List.singleton_append]
      rw [List.dropWhile_cons, ha]
      simp
  rw [hAiethen, hB, List.reverse_reverse]

/-- Unfolded form of `canonicalAux` used by the proofs below. -/
theorem canonicalAux_eq (d : List (String × String)) (auto : Bool) (nid : String) :
    canonicalAux d auto nid =
      if pyStrip nid = "" then ""
      else if auto && (walk d [] (pyStrip nid)).1.isEmpty then
        match freqSuffixFromNet (walk d [] (pyStrip nid)).2 with
        | some suf => autoCanonForSuffix suf
        | none => (walk d [] (pyStrip nid)).2
      else (walk d [] (pyStrip nid)).2 := by
  unfold canonicalAux
  by_cases h0 : pyStrip nid = ""
  · rw [if_pos h0, if_pos h0]
  · rw [if_neg h0, if_neg h0]
    simp only [Bool.not_not]

theorem dictSet_absorb (d : List (String × String)) (k v : String) :
    dictSet (dictSet d k v) k v = dictSet d k v := by
  by_cases hany : d.any (fun e => e.1 == k) = true
  · have h1 : dictSet d k v = d.map (fun e => if e.1 == k then (k, v) else e) := by
      unfold dictSet
      rw [if_pos hany]
    have hany2 : (d.map (fun e => if e.1 == k then (k, v) else e)).any
        (fun e => e.1 == k) = true := by
      rcases List.any_eq_true.mp hany with ⟨e, he, hp⟩
      refine List.any_eq_true.mpr ⟨(k, v), List.mem_map.mpr ⟨e, he, ?_⟩, by simp⟩
      rw [hp]
      simp
    rw [h1]
    unfold dictSet
    rw [if_pos hany2, List.map_map]
    refine List.map_congr_left ?_
    intro e _
    by_cases he : (e.1 == k) = true
    · simp [Function.comp, he]
    · rw [Bool.not_eq_true] at he
      simp [Function.comp, he]
  · have h1 : dictSet d k v = d ++ [(k, v)] := by
      unfold dictSet
      rw [if_neg hany]
    have hany2 : (d ++ [(k, v)]).any (fun e => e.1 == k) = true := by
      refine List.any_eq_true.mpr ⟨(k, v), by simp, by simp⟩
    rw [h1]
    unfold dictSet
    rw [if_pos hany2, List.map_append]
    have hmd : d.map (fun e => if e.1 == k then (k, v) else e) = d := by
      conv_rhs => rw [← List.map_id d]
      refine List.map_congr_left ?_
      intro e he
      have : (e.1 == k) = false := by
        by_contra hc
        rw [Bool.not_eq_false] at hc
        exact hany (List.any_eq_true.mpr ⟨e, he, hc⟩)
      rw [this]
      simp
    rw [hmd]
    simp

theorem canonicalAux_dictSet_stable (d : List (String × String)) (auto : Bool)
    (p nid : String) (hq : pyStrip nid ≠ "") (hpq : pyStrip nid ≠ p) :
    canonicalAux (dictSet d p (canonicalAux d auto nid)) auto nid =
      canonicalAux d auto nid := by
  set c := canonicalAux d auto nid with hc
  rw [canonicalAux_eq] at hc
  rw [if_neg hq] at hc
  rw [canonicalAux_eq, if_neg hq]
  rcases hw : walk d [] (pyStrip nid) with ⟨fin, r⟩
  rw [hw] at hc
  rcases walk_chain_spec d [] (pyStrip nid) fin r hw with
    ⟨vis, hchain, hfin, _, _, hstop⟩
  by_cases hfe : fin = []
  · subst hfe
    have hv : vis = [] := by
      rcases List.append_eq_nil.mp hfin.symm with ⟨h1, _⟩
      exact List.reverse_eq_nil_iff.mp h1
    subst hv
    have hr : r = pyStrip nid := by cases hchain; rfl
    have hlq : aliasLookup d (pyStrip nid) = none := by
      rcases hstop with h1 | h1
      · exact hr ▸ h1
      · cases h1
    have hlq1 : aliasLookup (dictSet d p c) (pyStrip nid) = none := by
      rw [aliasLookup_dictSet_ne _ _ _ _ hpq]
      exact hlq
    rw [walk_none _ _ _ hlq1, hc, hr]
  · have hvne : vis ≠ [] := by
      intro h1
      rw [h1] at hfin
      exact hfe (by simpa using hfin)
    have hfinne : fin.isEmpty = false := by
      rw [List.isEmpty_eq_false_iff_exists_mem]
      rcases List.exists_mem_of_ne_nil fin hfe with ⟨y, hy⟩
      exact ⟨y, hy⟩
    have hres : c = r := by
      rw [hc, hfinne]
      simp
    have hlk : ∃ x, aliasLookup d (pyStrip nid) = some x := by
      cases hchain with
      | nil => exact absurd rfl hvne
      | cons a x b l h t => exact ⟨x, h⟩
    rcases hlk with ⟨x, hlkx⟩
    have hlk1 : aliasLookup (dictSet d p c) (pyStrip nid) = some x := by
      rw [aliasLookup_dictSet_ne _ _ _ _ hpq]
      exact hlkx
    have hstab : (walk (dictSet d p c) [] (pyStrip nid)).2 = r := by
      rw [hres]
      exact walk_set_stable d p r [] (pyStrip nid) (by simp) (by rw [hw])
    have hne1 : (walk (dictSet d p c) [] (pyStrip nid)).1.isEmpty = false := by
      rw [walk_step _ _ _ x hlk1 (by simp)]
      rcases hw2 : walk (dictSet d p c) [pyStrip nid] x with ⟨fin2, r2⟩
      rcases walk_chain_spec _ _ _ fin2 r2 hw2 with ⟨vis2, _, hfin2, _, _, _⟩
      simp only
      rw [hfin2]
      rw [List.isEmpty_eq_false_iff_exists_mem]
      exact ⟨pyStrip nid, by simp⟩
    rcases hw1 : walk (dictSet d p c) [] (pyStrip nid) with ⟨fin1, r1⟩
    rw [hw1] at hstab hne1
    simp only at hstab hne1
    rw [hne1]
    simp only [Bool.and_false, Bool.false_eq_true, if_false]
    rw [hstab, hres]

theorem merge_net_eq (st : SessionManager) (src dst : String) :
    merge_net st src dst =
      if pyStrip src = "" ∨ pyStrip dst = "" ∨ pyStrip src = pyStrip dst then st
      else ⟨st.by_ssrc, dictSet st.net_alias (pyStrip src)
        (canonical_net st (pyStrip dst)), st.auto_merge_by_freq⟩ := rfl

/-- C6: `merge_net` is idempotent: for every alias-table state and every
pair of ids, repeating `merge_net(src, dst)` immediately after the first
call leaves the alias table exactly as the first call left it; and
`merge_net` is a no-op when src equals dst after trimming or when either
argument is empty. -/
theorem merge_net_idempotent_noop :
    (∀ (st : SessionManager) (src dst : String),
      merge_net (merge_net st src dst) src dst = merge_net st src dst) ∧
    (∀ (st : SessionManager) (src dst : String),
      pyStrip src = pyStrip dst ∨ src = "" ∨ dst = "" →
        merge_net st src dst = st) := by
  constructor
  · intro st src dst
    by_cases hno : pyStrip src = "" ∨ pyStrip dst = "" ∨ pyStrip src = pyStrip dst
    · have h1 : merge_net st src dst = st := by rw [merge_net_eq, if_pos hno]
      rw [h1, h1]
    · have hs : pyStrip src ≠ "" := fun h => hno (Or.inl h)
      have hd : pyStrip dst ≠ "" := fun h => hno (Or.inr (Or.inl h))
      have hsd : pyStrip src ≠ pyStrip dst := fun h => hno (Or.inr (Or.inr h))
      have h1 : merge_net st src dst = ⟨st.by_ssrc, dictSet st.net_alias (pyStrip src)
          (canonical_net st (pyStrip dst)), st.auto_merge_by_freq⟩ := by
        rw [merge_net_eq, if_neg hno]
      rw [h1, merge_net_eq, if_neg hno]
      simp only [canonical_net]
      have hstab := canonicalAux_dictSet_stable st.net_alias st.auto_merge_by_freq
        (pyStrip src) (pyStrip dst)
        (by rw [pyStrip_idem]; exact hd)
        (by rw [pyStrip_idem]; exact fun hh => hsd hh.symm)
      rw [hstab, dictSet_absorb]
  · intro st src dst h
    rw [merge_net_eq, if_pos]
    rcases h with h | h | h
    · exact Or.inr (Or.inr h)
    · exact Or.inl (by rw [h]; rfl)
    · exact Or.inr (Or.inl (by rw [h]; rfl))

/-- Witness for `merge_net_idempotent_noop`: the idempotence part at a
concrete state that takes the non-trivial branch, and the no-op part at a
pair of ids equal after trimming. -/
theorem merge_net_idempotent_noop_witness :
    merge_net (merge_net ⟨[], [("B", "C")], false⟩ "A" "B") "A" "B" =
      merge_net ⟨[], [("B", "C")], false⟩ "A" "B" ∧
    merge_net ⟨[], [("B", "C")], false⟩ "C" "C " = ⟨[], [("B", "C")], false⟩ :=
  ⟨merge_net_idempotent_noop.1 ⟨[], [("B", "C")], false⟩ "A" "B",
   merge_net_idempotent_noop.2 ⟨[], [("B", "C")], false⟩ "C" "C "
     (Or.inl (by decide))⟩

/-- C4: `canonical_net` is total in this development (the alias walk is
well-founded even on cyclic tables, visiting each id at most once), and on
the cyclic chain alias[A]=B, alias[B]=A it returns a member of the cycle,
for any auto-merge setting. -/
theorem canonical_net_cycle_terminates (st : SessionManager) (A B : String)
    (hA : aliasLookup st.net_alias A = some B)
    (hB : aliasLookup st.net_alias B = some A)
    (ht : pyStrip A = A) (hne : A ≠ "") :
    canonical_net st A = A ∨ canonical_net st A = B := by
  left
  simp only [canonical_net]
  rw [canonicalAux_eq, ht, if_neg hne]
  by_cases hab : B = A
  · subst hab
    rw [walk_step _ _ _ B hA (by simp)]
    rw [walk_mem _ _ _ (by simp)]
    simp
  · rw [walk_step _ _ _ B hA (by simp)]
    rw [walk_step _ _ _ A hB (by
      simp only [List.mem_singleton]
      exact hab)]
    rw [walk_mem _ _ _ (by simp)]
    simp

/-- Witness for `canonical_net_cycle_terminates` on the concrete two-cycle
table alias["A"]="B", alias["B"]="A". -/
theorem canonical_net_cycle_terminates_witness :
    canonical_net ⟨[], [("A", "B"), ("B", "A")], false⟩ "A" = "A" ∨
    canonical_net ⟨[], [("A", "B"), ("B", "A")], false⟩ "A" = "B" :=
  canonical_net_cycle_terminates ⟨[], [("A", "B"), ("B", "A")], false⟩ "A" "B"
    (by decide) (by decide) (by decide) (by decide)

/-- C3 counterexample: with auto-merge-by-frequency enabled, the acyclic
chain alias["A"]="B", alias["B"]="XYZ1000" (C = "XYZ1000" not aliased)
gives canonical_net("A") = "XYZ1000" but canonical_net("XYZ1000") =
"FREQ-100": the manual-alias flag suppresses the FREQ substitution for A
but not for C, refuting the claimed equality for every state of the
auto-merge flag. -/
theorem canonical_net_chain_counterexample :
    canonical_net ⟨[], [("A", "B"), ("B", "XYZ1000")], true⟩ "A" ≠
      canonical_net ⟨[], [("A", "B"), ("B", "XYZ1000")], true⟩ "XYZ1000" := by
  have h1 : canonical_net ⟨[], [("A", "B"), ("B", "XYZ1000")], true⟩ "A" = "XYZ1000" := by
    simp only [canonical_net]
    rw [canonicalAux_eq]
    rw [show pyStrip "A" = "A" from rfl, if_neg (by decide)]
    rw [walk_step _ _ _ "B" (by decide) (by simp)]
    rw [walk_step _ _ _ "XYZ1000" (by decide) (by decide)]
    rw [walk_none _ _ _ (by decide)]
    decide
  have h2 : canonical_net ⟨[], [("A", "B"), ("B", "XYZ1000")], true⟩ "XYZ1000" =
      "FREQ-100" := by
    simp only [canonical_net]
    rw [canonicalAux_eq]
    rw [show pyStrip "XYZ1000" = "XYZ1000" from rfl, if_neg (by decide)]
    rw [walk_none _ _ _ (by decide)]
    decide
  rw [h1, h2]
  decide

/-- C3 (amended): with auto-merge-by-frequency disabled, for every alias
table containing the acyclic chain alias[A]=B, alias[B]=C with C not
aliased, A a non-empty whitespace-free id and C whitespace-free,
canonical_net(A) = canonical_net(C). (The original claim also asserted
this with auto-merge enabled, which `canonical_net_chain_counterexample`
refutes.) -/
theorem canonical_net_chain_amended (st : SessionManager) (A B C : String)
    (hauto : st.auto_merge_by_freq = false)
    (hA : aliasLookup st.net_alias A = some B)
    (hB : aliasLookup st.net_alias B = some C)
    (hC : aliasLookup st.net_alias C = none)
    (htA : pyStrip A = A) (hneA : A ≠ "") (hAB : A ≠ B)
    (htC : pyStrip C = C) :
    canonical_net st A = canonical_net st C := by
  have h1 : canonical_net st A = C := by
    simp only [canonical_net]
    rw [canonicalAux_eq, htA, if_neg hneA]
    rw [walk_step _ _ _ B hA (by simp)]
    rw [walk_step _ _ _ C hB (by
      simp only [List.mem_singleton]
      exact fun h => hAB h.symm)]
    rw [walk_none _ _ _ hC, hauto]
    simp
  have h2 : canonical_net st C = C := by
    simp only [canonical_net]
    rw [canonicalAux_eq, htC]
    by_cases hneC : C = ""
    · rw [if_pos hneC]
      exact hneC.symm
    · rw [if_neg hneC, walk_none _ _ _ hC, hauto]
      simp
  rw [h1, h2]

/-- Witness for `canonical_net_chain_amended` on the concrete chain
alias["A"]="B", alias["B"]="C" with auto-merge disabled. -/
theorem canonical_net_chain_amended_witness :
    canonical_net ⟨[], [("A", "B"), ("B", "C")], false⟩ "A" =
      canonical_net ⟨[], [("A", "B"), ("B", "C")], false⟩ "C" :=
  canonical_net_chain_amended ⟨[], [("A", "B"), ("B", "C")], false⟩ "A" "B" "C"
    rfl (by decide) (by decide) (by decide) (by decide) (by decide) (by decide)
    (by decide)

theorem digitChar_toNat : ∀ d, d < 10 → (Nat.digitChar d).toNat = 48 + d := by decide

theorem digitChar_isDigit : ∀ d, d < 10 → (Nat.digitChar d).isDigit = true := by decide

theorem isDigit_toNat_bounds (c : Char) (h : c.isDigit = true) :
    48 ≤ c.toNat ∧ c.toNat ≤ 57 := by
  simp [Char.isDigit] at h
  exact ⟨h.1, h.2⟩

theorem fmt04_length (n : ℕ) : (fmt04 n).length = 4 := rfl

theorem fmt04_digits (n : ℕ) : (fmt04 n).toList.all Char.isDigit = true := by
  have h1000 : n / 1000 % 10 < 10 := Nat.mod_lt _ (by norm_num)
  have h100 : n / 100 % 10 < 10 := Nat.mod_lt _ (by norm_num)
  have h10 : n / 10 % 10 < 10 := Nat.mod_lt _ (by norm_num)
  have h1 : n % 10 < 10 := Nat.mod_lt _ (by norm_num)
  show List.all [_, _, _, _] Char.isDigit = true
  simp only [List.all_cons, List.all_nil, Bool.and_true]
  rw [digitChar_isDigit _ h1000, digitChar_isDigit _ h100,
    digitChar_isDigit _ h10, digitChar_isDigit _ h1]
  rfl

theorem digitsToNat_fmt04 (n : ℕ) (h : n ≤ 9999) :
    digitsToNat (fmt04 n).toList = n := by
  have h1000 : n / 1000 % 10 < 10 := Nat.mod_lt _ (by norm_num)
  have h100 : n / 100 % 10 < 10 := Nat.mod_lt _ (by norm_num)
  have h10 : n / 10 % 10 < 10 := Nat.mod_lt _ (by norm_num)
  have h1 : n % 10 < 10 := Nat.mod_lt _ (by norm_num)
  show digitsToNat [_, _, _, _] = n
  unfold digitsToNat
  simp only [List.foldl_cons, List.foldl_nil]
  rw [digitChar_toNat _ h1000, digitChar_toNat _ h100,
    digitChar_toNat _ h10, digitChar_toNat _ h1]
  omega

theorem foldl_digits_lt (l : List Char) (h : ∀ c ∈ l, c.isDigit = true) :
    ∀ a : ℕ, l.foldl (fun a c => 10 * a + (c.toNat - 48)) a < (a + 1) * 10 ^ l.length := by
  induction l with
  | nil =>
    intro a
    simpa using Nat.lt_succ_self a
  | cons c t ih =>
    intro a
    have hc : c.toNat - 48 ≤ 9 := by
      have := isDigit_toNat_bounds c (h c (List.mem_cons_self c t))
      omega
    have hrec := ih (fun x hx => h x (List.mem_cons_of_mem _ hx)) (10 * a + (c.toNat - 48))
    rw [List.foldl_cons]
    refine lt_of_lt_of_le hrec ?_
    have hp : (10 * a + (c.toNat - 48) + 1) ≤ (a + 1) * 10 := by omega
    calc (10 * a + (c.toNat - 48) + 1) * 10 ^ t.length
        ≤ (a + 1) * 10 * 10 ^ t.length := Nat.mul_le_mul_right _ hp
      _ = (a + 1) * 10 ^ (c :: t).length := by
          rw [List.length_cons, pow_succ]
          ring

theorem digitsToNat_lt (l : List Char) (h : l.all Char.isDigit = true) :
    digitsToNat l < 10 ^ l.length := by
  have := foldl_digits_lt l (fun c hc => List.all_eq_true.mp h c hc) 0
  simpa [digitsToNat] using this

theorem pyTrunc_intCast (n : ℤ) : pyTrunc ((n : ℤ) : ℚ) = n := by
  unfold pyTrunc
  split
  · exact Int.floor_intCast n
  · exact Int.ceil_intCast n

/-- C5: for every frequency f in [0, 999.9] MHz, `_freq_suffix(f)` is the
4-digit zero-padded decimal rendering of int(f*10) clamped to [0, 9999]
(with the clamp inactive on that range), and the boundary cases
`_freq_suffix(-5) = "0000"` and `_freq_suffix(1000.0) = "9999"` hold. -/
theorem freq_suffix_spec :
    (∀ f : ℚ, 0 ≤ f → f ≤ 999.9 →
      (freqSuffix f).length = 4 ∧
      (freqSuffix f).toList.all Char.isDigit = true ∧
      (digitsToNat (freqSuffix f).toList : ℤ) = min 9999 (max 0 (pyTrunc (f * 10))) ∧
      min 9999 (max 0 (pyTrunc (f * 10))) = pyTrunc (f * 10)) ∧
    freqSuffix (-5) = "0000" ∧ freqSuffix 1000 = "9999" := by
  refine ⟨?_, ?_, ?_⟩
  · intro f h0 h1
    have hq0 : 0 ≤ f * 10 := by positivity
    have ht0 : 0 ≤ pyTrunc (f * 10) := by
      unfold pyTrunc
      rw [if_pos hq0]
      exact Int.floor_nonneg.mpr hq0
    have hq9 : f * 10 ≤ ((9999 : ℤ) : ℚ) := by
      push_cast
      nlinarith
    have ht9 : pyTrunc (f * 10) ≤ 9999 := by
      unfold pyTrunc
      rw [if_pos hq0]
      calc ⌊f * 10⌋ ≤ ⌊((9999 : ℤ) : ℚ)⌋ := Int.floor_le_floor hq9
        _ = 9999 := Int.floor_intCast _
    have hfs : freqSuffix f = fmt04 (pyTrunc (f * 10)).toNat := by
      simp only [freqSuffix]
      rw [if_neg (show ¬ pyTrunc (f * 10) < 0 by omega)]
      rw [if_neg (show ¬ (9999 : ℤ) < pyTrunc (f * 10) by omega)]
    have hle : (pyTrunc (f * 10)).toNat ≤ 9999 := by omega
    refine ⟨by rw [hfs]; exact fmt04_length _, by rw [hfs]; exact fmt04_digits _, ?_, ?_⟩
    · rw [hfs, digitsToNat_fmt04 _ hle]
      omega
    · omega
  · have h : pyTrunc ((-5 : ℚ) * 10) = -50 := by
      rw [show ((-5 : ℚ) * 10) = ((-50 : ℤ) : ℚ) by norm_num]
      exact pyTrunc_intCast _
    unfold freqSuffix
    rw [h]
    decide
  · have h : pyTrunc ((1000 : ℚ) * 10) = 10000 := by
      rw [show ((1000 : ℚ) * 10) = ((10000 : ℤ) : ℚ) by norm_num]
      exact pyTrunc_intCast _
    unfold freqSuffix
    rw [h]
    decide

/-- Witness for `freq_suffix_spec` at f = 100 MHz. -/
theorem freq_suffix_spec_witness :
    (freqSuffix 100).length = 4 ∧
    (freqSuffix 100).toList.all Char.isDigit = true ∧
    (digitsToNat (freqSuffix 100).toList : ℤ) = min 9999 (max 0 (pyTrunc ((100 : ℚ) * 10))) ∧
    min 9999 (max 0 (pyTrunc ((100 : ℚ) * 10))) = pyTrunc ((100 : ℚ) * 10) :=
  freq_suffix_spec.1 100 (by norm_num) (by norm_num)

/-- The last four characters of an id (Python `nid[-4:]` for ids of
length at least 4). -/
def lastFour (s : String) : List Char := s.toList.drop (s.length - 4)

theorem freqSuffixFromNet_eq_of_strip (nid : String) (ht : pyStrip nid = nid) :
    freqSuffixFromNet nid =
      if nid.length < 4 then none
      else if (lastFour nid).all Char.isDigit then
        if digitsToNat (lastFour nid) = 0 then none
        else some (fmt04 (digitsToNat (lastFour nid)))
      else none := by
  simp only [freqSuffixFromNet, lastFour, ht]

/-- C10: with auto-merge-by-frequency enabled and no manual alias applying
to the (whitespace-free) id, `canonical_net` substitutes a synthetic FREQ
id exactly when the id's last four characters are digits encoding a
strictly positive value; an id whose suffix is "0000" (frequency 0.0) or
non-numeric is returned unchanged. -/
theorem auto_merge_zero_freq_spec (st : SessionManager) (nid : String)
    (hauto : st.auto_merge_by_freq = true)
    (hlk : aliasLookup st.net_alias nid = none)
    (ht : pyStrip nid = nid) :
    (¬ (4 ≤ nid.length ∧ (lastFour nid).all Char.isDigit = true ∧
        0 < digitsToNat (lastFour nid)) →
      canonical_net st nid = nid) ∧
    ((4 ≤ nid.length ∧ (lastFour nid).all Char.isDigit = true ∧
        0 < digitsToNat (lastFour nid)) →
      canonical_net st nid = "FREQ-" ++ fmtTenths (digitsToNat (lastFour nid))) := by
  by_cases hemp : nid = ""
  · constructor
    · intro _
      subst hemp
      simp only [canonical_net]
      rw [canonicalAux_eq]
      rw [show pyStrip "" = "" from rfl]
      simp
    · intro h
      refine absurd h.1 ?_
      subst hemp
      decide
  · have hbase : canonical_net st nid =
        (match freqSuffixFromNet nid with
         | some suf => autoCanonForSuffix suf
         | none => nid) := by
      simp only [canonical_net]
      rw [canonicalAux_eq, ht, if_neg hemp, walk_none _ _ _ hlk, hauto]
      simp
    rw [freqSuffixFromNet_eq_of_strip nid ht] at hbase
    constructor
    · intro hnot
      rw [hbase]
      by_cases hl : nid.length < 4
      · rw [if_pos hl]
      · rw [if_neg hl]
        by_cases hd : (lastFour nid).all Char.isDigit = true
        · rw [if_pos hd]
          have hz : digitsToNat (lastFour nid) = 0 := by
            by_contra hz
            exact hnot ⟨by omega, hd, by omega⟩
          rw [if_pos hz]
        · rw [if_neg hd]
    · intro hpos
      rw [hbase]
      rw [if_neg (by omega), if_pos hpos.2.1, if_neg (by omega)]
      have hlen4 : (lastFour nid).length = 4 := by
        simp only [lastFour]
        have hsl : nid.toList.length = nid.length := rfl
        rw [List.length_drop, hsl]
        omega
      have hval : digitsToNat (lastFour nid) ≤ 9999 := by
        have := digitsToNat_lt (lastFour nid) hpos.2.1
        rw [hlen4] at this
        omega
      simp only [autoCanonForSuffix]
      rw [if_pos (fmt04_digits _)]
      rw [digitsToNat_fmt04 _ hval]

/-- Witness for `auto_merge_zero_freq_spec`: with auto-merge on and an
empty alias table, the zero-frequency id "ABC0000" is unchanged while
"ABC1000" is FREQ-substituted. -/
theorem auto_merge_zero_freq_spec_witness :
    canonical_net ⟨[], [], true⟩ "ABC0000" = "ABC0000" ∧
    canonical_net ⟨[], [], true⟩ "ABC1000" =
      "FREQ-" ++ fmtTenths (digitsToNat (lastFour "ABC1000")) :=
  ⟨(auto_merge_zero_freq_spec ⟨[], [], true⟩ "ABC0000" rfl (by decide) (by decide)).1
      (by decide),
   (auto_merge_zero_freq_spec ⟨[], [], true⟩ "ABC1000" rfl (by decide) (by decide)).2
      (by decide)⟩

/-- C7 (code bug): the tolerant decoder's int16 path divides by 32767
without clamping, so the 2-byte buffer 0x00 0x80 (int16 -32768) decodes to
the single sample -32768/32767, which lies outside [-1, 1] — contradicting
both the claim and the shim's own documentation ("mono in [-1, 1]"). -/
theorem decode_to_float32_out_of_range :
    decode_to_float32 1 [0, 128] = some [F32.num ((-32768 : ℚ) / 32767)] ∧
    (-32768 : ℚ) / 32767 < -1 := by
  constructor
  · simp only [decode_to_float32, intPath, bytesToI16]
    norm_num
  · norm_num

theorem getDecoderCache_le (cache : List (ℤ × Unit)) (k : Option ℤ)
    (h : cache.length ≤ 32) : (getDecoderCache cache k).length ≤ 32 := by
  cases k with
  | none => exact h
  | some key =>
    simp only [getDecoderCache]
    by_cases hf : ((cache.find? (fun e => e.1 == key)).map (fun e => e.2)).isSome = true
    · rw [if_pos hf]
      exact h
    · rw [if_neg hf]
      have hfind : cache.find? (fun e => e.1 == key) = none := by
        cases h' : cache.find? (fun e => e.1 == key) with
        | none => rfl
        | some e => rw [h'] at hf; simp at hf
      by_cases hlen : 32 < (cache ++ [(key, ())]).length
      · rw [if_pos hlen]
        cases hcache : cache with
        | nil =>
          subst hcache
          simp at hlen
        | cons hd tl =>
          subst hcache
          simp only [List.cons_append, List.head?_cons]
          have hne : hd.1 ≠ key := by
            have := List.find?_eq_none.mp hfind hd (List.mem_cons_self hd tl)
            simpa using this
          rw [if_pos hne]
          rw [List.eraseP_cons_of_pos (by simp)]
          simp only [List.length_append, List.length_cons, List.length_nil] at h hlen ⊢
          omega
      · rw [if_neg hlen]
        simp only [List.length_append, List.length_cons] at hlen ⊢
        omega

/-- C9: starting from the empty per-sender decoder cache, after every
completed `_get_decoder` call of any call sequence with arbitrary sender
keys, the cache holds at most 32 entries (hence maps at most 32 distinct
sender keys to decoders). -/
theorem decoder_cache_bounded (ks : List (Option ℤ)) :
    (ks.foldl getDecoderCache []).length ≤ 32 := by
  suffices h : ∀ cache : List (ℤ × Unit), cache.length ≤ 32 →
      (ks.foldl getDecoderCache cache).length ≤ 32 by
    exact h [] (by simp)
  induction ks with
  | nil =>
    intro cache h
    simpa using h
  | cons k t ih =>
    intro cache h
    simp only [List.foldl_cons]
    exact ih _ (getDecoderCache_le cache k h)

theorem deliverLoop_eq (other : Session) (l : List ℕ) :
    ∀ acc, deliverLoop other l acc =
      match l.find? (fun j => other.active_channel == Int.ofNat j) with
      | some i => some i
      | none =>
        match acc with
        | some a => some a
        | none => l.find? (fun i => scanFlagAt other i) := by
  induction l with
  | nil =>
    intro acc
    cases acc <;> rfl
  | cons i t ih =>
    intro acc
    simp only [deliverLoop, List.find?_cons]
    by_cases ha : (other.active_channel == Int.ofNat i) = true
    · rw [ha]
      simp only [if_true]
    · rw [Bool.not_eq_true] at ha
      rw [ha]
      simp only [Bool.false_eq_true, if_false]
      by_cases hs : (scanFlagAt other i && acc.isNone) = true
      · rw [if_pos hs]
        have hsc : scanFlagAt other i = true := by
          by_contra hh
          rw [Bool.not_eq_true] at hh
          rw [hh] at hs
          simp at hs
        have hacc : acc.isNone = true := by
          by_contra hh
          rw [Bool.not_eq_true] at hh
          rw [hh] at hs
          simp at hs
        have hacc' : acc = none := Option.isNone_iff_eq_none.mp hacc
        subst hacc'
        rw [ih]
        cases t.find? (fun i => other.active_channel == Int.ofNat i) with
        | none => simp [hsc]
        | some b => rfl
      · rw [if_neg hs]
        rw [ih]
        cases acc with
        | some a => rfl
        | none =>
          have hsc : scanFlagAt other i = false := by
            by_contra hh
            rw [Bool.not_eq_false] at hh
            exact hs (by rw [hh]; rfl)
          cases t.find? (fun i => other.active_channel == Int.ofNat i) with
          | none => simp [hsc]
          | some b => rfl

theorem deliverLoop_none_eq_claimDeliver (st : SessionManager) (other : Session)
    (target : String) :
    deliverLoop other (matchIdxs st other target) none = claimDeliver st other target := by
  rw [deliverLoop_eq]
  unfold claimDeliver
  cases (matchIdxs st other target).find? (fun i => other.active_channel == Int.ofNat i) with
  | none => rfl
  | some i => rfl

theorem audio_chan_net (st : SessionManager) (now : ℚ) (ssrc : ℤ) (sender : Session)
    (hs : lookupSsrc st.by_ssrc ssrc = some sender) :
    (audio_recipients_for st now ssrc).2.2.2 =
      canonical_net st ((netIds sender).getD (clamp03 sender.active_channel) "") := by
  unfold audio_recipients_for
  rw [hs]
  dsimp only
  by_cases h0 : canonical_net st ((netIds sender).getD (clamp03 sender.active_channel) "") = ""
  · rw [if_pos h0]
  · rw [if_neg h0]

theorem audio_recipients_unfold (st : SessionManager) (now : ℚ) (ssrc : ℤ)
    (sender : Session)
    (hs : lookupSsrc st.by_ssrc ssrc = some sender)
    (hnet : canonical_net st ((netIds sender).getD (clamp03 sender.active_channel) "") ≠ "") :
    (audio_recipients_for st now ssrc).1 =
      st.by_ssrc.filterMap (recipEntry st now ssrc (canonical_net st
        ((netIds sender).getD (clamp03 sender.active_channel) "")))
      ++ (if sender.loopback then [((ssrc, sender), clamp03 sender.active_channel)]
          else []) := by
  unfold audio_recipients_for
  rw [hs]
  dsimp only
  rw [if_neg hnet]
  by_cases hl : sender.loopback = true
  · rw [if_pos hl, if_pos hl]
  · rw [if_neg hl, if_neg hl]
    rw [List.append_nil]

theorem recipEntry_eq_some_iff (st : SessionManager) (now : ℚ) (ssrc : ℤ)
    (target : String) (e : ℤ × Session) (r : (ℤ × Session) × ℕ) :
    recipEntry st now ssrc target e = some r ↔
      (e.1 ≠ ssrc ∧ now - e.2.last_seen ≤ 15 ∧
       claimDeliver st e.2 target = some r.2 ∧ r.1 = e) := by
  unfold recipEntry
  dsimp only
  constructor
  · intro hge
    by_cases h1 : (e.1 == ssrc) = true
    · rw [if_pos h1] at hge
      cases hge
    · rw [if_neg h1] at hge
      by_cases h2 : 15 < now - e.2.last_seen
      · rw [if_pos h2] at hge
        cases hge
      · rw [if_neg h2] at hge
        by_cases h3 : (matchIdxs st e.2 target).isEmpty = true
        · rw [if_pos h3] at hge
          cases hge
        · rw [if_neg h3] at hge
          rcases Option.map_eq_some'.mp hge with ⟨j', hdel, heq⟩
          subst heq
          refine ⟨fun hc => h1 (by rw [hc]; exact beq_self_eq_true ssrc), not_lt.mp h2, ?_, rfl⟩
          rw [← deliverLoop_none_eq_claimDeliver]
          exact hdel
  · rintro ⟨hk, htime, hdel, hre⟩
    rw [if_neg (fun hc => hk (eq_of_beq hc))]
    rw [if_neg (not_lt.mpr htime)]
    have hmi : ¬ (matchIdxs st e.2 target).isEmpty = true := by
      intro hmi
      have hnil : matchIdxs st e.2 target = [] := List.isEmpty_iff.mp hmi
      unfold claimDeliver at hdel
      rw [hnil] at hdel
      simp at hdel
    rw [if_neg hmi]
    rw [deliverLoop_none_eq_claimDeliver, hdel]
    rw [Option.map_some']
    rw [show ((e, r.2) : (ℤ × Session) × ℕ) = r by rw [← hre]]

theorem recips_mem_iff (st : SessionManager) (now : ℚ) (ssrc : ℤ) (sender : Session)
    (hs : lookupSsrc st.by_ssrc ssrc = some sender)
    (hnet : canonical_net st ((netIds sender).getD (clamp03 sender.active_channel) "") ≠ "")
    (k : ℤ) (other : Session) (j : ℕ)
    (hmem : (k, other) ∈ st.by_ssrc) (hk : k ≠ ssrc) :
    ((k, other), j) ∈ (audio_recipients_for st now ssrc).1 ↔
      (now - other.last_seen ≤ 15 ∧
       claimDeliver st other (canonical_net st
         ((netIds sender).getD (clamp03 sender.active_channel) "")) = some j) := by
  rw [audio_recipients_unfold st now ssrc sender hs hnet]
  rw [List.mem_append]
  constructor
  · rintro (hb | ht)
    · rcases List.mem_filterMap.mp hb with ⟨e, _, hge⟩
      rcases (recipEntry_eq_some_iff st now ssrc _ e _).mp hge with ⟨_, htime, hdel, hre⟩
      have he : e = (k, other) := hre.symm ▸ rfl
      subst he
      exact ⟨htime, hdel⟩
    · exfalso
      by_cases hl : sender.loopback = true
      · rw [if_pos hl] at ht
        rw [List.mem_singleton] at ht
        exact hk (congrArg (fun r => r.1.1) ht)
      · rw [if_neg hl] at ht
        cases ht
  · rintro ⟨htime, hdel⟩
    left
    refine List.mem_filterMap.mpr ⟨(k, other), hmem, ?_⟩
    exact (recipEntry_eq_some_iff st now ssrc _ (k, other) ((k, other), j)).mpr
      ⟨hk, htime, hdel, rfl⟩

theorem filterMap_sublist_map {α β : Type} (l : List α) (h : α → Option β) (f : α → β)
    (hh : ∀ a ∈ l, h a = none ∨ h a = some (f a)) : (l.filterMap h).Sublist (l.map f) := by
  induction l with
  | nil => simp
  | cons a t ih =>
    rw [List.filterMap_cons, List.map_cons]
    rcases hh a (List.mem_cons_self a t) with h1 | h1
    · rw [h1]
      exact (ih (fun x hx => hh x (List.mem_cons_of_mem _ hx))).cons _
    · rw [h1]
      exact (ih (fun x hx => hh x (List.mem_cons_of_mem _ hx))).cons₂ _

theorem recips_keys_nodup (st : SessionManager) (now : ℚ) (ssrc : ℤ) (sender : Session)
    (hnd : (st.by_ssrc.map Prod.fst).Nodup)
    (hs : lookupSsrc st.by_ssrc ssrc = some sender)
    (hnet : canonical_net st ((netIds sender).getD (clamp03 sender.active_channel) "") ≠ "") :
    ((audio_recipients_for st now ssrc).1.map (fun r => r.1.1)).Nodup := by
  rw [audio_recipients_unfold st now ssrc sender hs hnet]
  rw [List.map_append]
  set target := canonical_net st ((netIds sender).getD (clamp03 sender.active_channel) "")
  have hbase : ((st.by_ssrc.filterMap (recipEntry st now ssrc target)).map
      (fun r => r.1.1)).Sublist (st.by_ssrc.map Prod.fst) := by
    rw [List.map_filterMap]
    refine filterMap_sublist_map _ _ _ (fun e _ => ?_)
    cases hge : recipEntry st now ssrc target e with
    | none => exact Or.inl rfl
    | some r =>
      rcases (recipEntry_eq_some_iff st now ssrc target e r).mp hge with ⟨_, _, _, hre⟩
      exact Or.inr (by rw [Option.map_some', hre])
  have hbnd : ((st.by_ssrc.filterMap (recipEntry st now ssrc target)).map
      (fun r => r.1.1)).Nodup := hbase.nodup hnd
  have hbkeys : ∀ x ∈ (st.by_ssrc.filterMap (recipEntry st now ssrc target)).map
      (fun r => r.1.1), x ≠ ssrc := by
    intro x hx
    rcases List.mem_map.mp hx with ⟨r, hr, hxr⟩
    rcases List.mem_filterMap.mp hr with ⟨e, _, hge⟩
    rcases (recipEntry_eq_some_iff st now ssrc target e r).mp hge with ⟨hke, _, _, hre⟩
    rw [← hxr, hre]
    exact hke
  by_cases hl : sender.loopback = true
  · rw [if_pos hl]
    rw [List.map_singleton]
    rw [List.nodup_append]
    refine ⟨hbnd, List.nodup_singleton _, ?_⟩
    intro x hx hx2
    rw [List.mem_singleton] at hx2
    exact hbkeys x hx hx2
  · rw [if_neg hl]
    simpa using hbnd

/-- C1: with the sender present and its canonical active-channel net id
non-empty, a session entry other than the sender's appears in the
recipients of `audio_recipients_for` (with channel index j attached) if
and only if its last_seen is within the 15 s activity window and the
specification's delivery choice — the receiver's active channel among the
canonically matching channels if it matches, otherwise the first
scan-enabled matching channel — is exactly j; and each session entry
appears at most once. -/
theorem audio_recipients_for_spec (st : SessionManager) (now : ℚ) (ssrc : ℤ)
    (sender : Session)
    (hnd : (st.by_ssrc.map Prod.fst).Nodup)
    (hs : lookupSsrc st.by_ssrc ssrc = some sender)
    (hnet : (audio_recipients_for st now ssrc).2.2.2 ≠ "") :
    (∀ (k : ℤ) (other : Session) (j : ℕ), (k, other) ∈ st.by_ssrc → k ≠ ssrc →
      (((k, other), j) ∈ (audio_recipients_for st now ssrc).1 ↔
        (now - other.last_seen ≤ 15 ∧
         claimDeliver st other ((audio_recipients_for st now ssrc).2.2.2) = some j))) ∧
    ((audio_recipients_for st now ssrc).1.map (fun r => r.1.1)).Nodup := by
  have hchan := audio_chan_net st now ssrc sender hs
  rw [hchan] at hnet
  constructor
  · intro k other j hmem hk
    rw [hchan]
    exact recips_mem_iff st now ssrc sender hs hnet k other j hmem hk
  · exact recips_keys_nodup st now ssrc sender hnd hs hnet

theorem canonicalAux_nil_false (nid : String) :
    canonicalAux [] false nid = pyStrip nid := by
  rw [canonicalAux_eq]
  by_cases h : pyStrip nid = ""
  · rw [if_pos h]
    exact h.symm
  · rw [if_neg h, walk_none [] [] (pyStrip nid) rfl]
    simp

theorem canonical_net_nil_false (st : SessionManager) (h1 : st.net_alias = [])
    (h2 : st.auto_merge_by_freq = false) (x : String) :
    canonical_net st x = pyStrip x := by
  unfold canonical_net
  rw [h1, h2, canonicalAux_nil_false]

theorem freqSuffix_100 : freqSuffix 100 = "1000" := by
  have h : pyTrunc ((100 : ℚ) * 10) = 1000 := by
    rw [show ((100 : ℚ) * 10) = ((1000 : ℤ) : ℚ) by norm_num]
    exact pyTrunc_intCast _
  simp only [freqSuffix, h]
  decide

theorem freqSuffix_0 : freqSuffix 0 = "0000" := by
  have h : pyTrunc ((0 : ℚ) * 10) = 0 := by
    rw [show ((0 : ℚ) * 10) = ((0 : ℤ) : ℚ) by norm_num]
    exact pyTrunc_intCast _
  simp only [freqSuffix, h]
  decide

theorem netIds_getD (s : Session) (i : ℕ) (hi : i < 4) :
    (netIds s).getD i "" = s.net_prefixes.getD i "" ++ freqSuffix (s.freqs.getD i 0) := by
  interval_cases i <;> rfl

/-- Concrete sender for the routing scenarios: ssrc 1, active channel 0 at
100.0 MHz, no scanning, prefixes AAA/AAB/AAC/AAD, fresh at t = 100. -/
def sessionS : Session :=
  ⟨1, 0, [100, 0, 0, 0], [false, false, false, false],
    ["AAA", "AAB", "AAC", "AAD"], 100, false⟩

/-- Concrete receiver whose channel-2 prefix coincides with the sender's
channel-0 prefix: ssrc 2, active channel 2 at 100.0 MHz. -/
def sessionR : Session :=
  ⟨2, 2, [0, 0, 100, 0], [false, false, false, false],
    ["BBA", "BBB", "AAA", "BBD"], 100, false⟩

/-- Concrete receiver in the true default situation: its own random
prefixes everywhere, channel 2 at 100.0 MHz, active channel 2. -/
def sessionRbad : Session :=
  ⟨2, 2, [0, 0, 100, 0], [false, false, false, false],
    ["BBA", "BBB", "BBC", "BBD"], 100, false⟩

/-- Default-state manager holding the prefix-sharing pair. -/
def mgrGood : SessionManager := ⟨[(1, sessionS), (2, sessionR)], [], false⟩

/-- Default-state manager holding the genuinely default (distinct-prefix)
pair of the counterexample. -/
def mgrBad : SessionManager := ⟨[(1, sessionS), (2, sessionRbad)], [], false⟩

theorem netIds_sessionS :
    netIds sessionS = ["AAA1000", "AAB0000", "AAC0000", "AAD0000"] := by
  show ["AAA" ++ freqSuffix 100, "AAB" ++ freqSuffix 0,
    "AAC" ++ freqSuffix 0, "AAD" ++ freqSuffix 0] = _
  rw [freqSuffix_100, freqSuffix_0]
  decide

theorem netIds_sessionR :
    netIds sessionR = ["BBA0000", "BBB0000", "AAA1000", "BBD0000"] := by
  show ["BBA" ++ freqSuffix 0, "BBB" ++ freqSuffix 0,
    "AAA" ++ freqSuffix 100, "BBD" ++ freqSuffix 0] = _
  rw [freqSuffix_100, freqSuffix_0]
  decide

theorem netIds_sessionRbad :
    netIds sessionRbad = ["BBA0000", "BBB0000", "BBC1000", "BBD0000"] := by
  show ["BBA" ++ freqSuffix 0, "BBB" ++ freqSuffix 0,
    "BBC" ++ freqSuffix 100, "BBD" ++ freqSuffix 0] = _
  rw [freqSuffix_100, freqSuffix_0]
  decide

theorem chan_net_good : (audio_recipients_for mgrGood 100 1).2.2.2 = "AAA1000" := by
  rw [audio_chan_net mgrGood 100 1 sessionS rfl]
  rw [netIds_sessionS]
  rw [canonical_net_nil_false mgrGood rfl rfl]
  decide

/-- Witness for `audio_recipients_for_spec` at the concrete prefix-sharing
pair: sender ssrc 1, receiver entry (2, sessionR), channel index 2. -/
theorem audio_recipients_for_spec_witness :
    (((2 : ℤ), sessionR), 2) ∈ (audio_recipients_for mgrGood 100 1).1 ↔
      (100 - sessionR.last_seen ≤ 15 ∧
       claimDeliver mgrGood sessionR ((audio_recipients_for mgrGood 100 1).2.2.2) =
         some 2) :=
  (audio_recipients_for_spec mgrGood 100 1 sessionS (by decide) rfl
      (by rw [chan_net_good]; decide)).1 2 sessionR 2 (by decide) (by decide)

/-- A session manager in the default routing state (no manual aliases,
auto-merge disabled) holding exactly the sender and receiver entries. -/
def defaultMgr (sS sR : ℤ) (S R : Session) : SessionManager :=
  ⟨[(sS, S), (sR, R)], [], false⟩

/-- C2 counterexample: in the true default state the sender's and
receiver's random per-channel prefixes differ, so although S transmits on
channel 0 at 100.0 MHz and R listens on channel 2 at 100.0 MHz with
active channel 2, (R, 2) is NOT among the recipients — the canonical ids
"AAA1000" and "BBC1000" never match. -/
theorem routing_same_freq_counterexample :
    ¬ (((2 : ℤ), sessionRbad), 2) ∈ (audio_recipients_for mgrBad 100 1).1 := by
  have htv : canonical_net mgrBad ((netIds sessionS).getD (clamp03 sessionS.active_channel) "")
      = "AAA1000" := by
    rw [netIds_sessionS, canonical_net_nil_false mgrBad rfl rfl]
    decide
  have hnet : canonical_net mgrBad
      ((netIds sessionS).getD (clamp03 sessionS.active_channel) "") ≠ "" := by
    rw [htv]
    decide
  rw [audio_recipients_unfold mgrBad 100 1 sessionS rfl hnet]
  intro hmem
  rw [List.mem_append] at hmem
  rcases hmem with hb | ht
  · rcases List.mem_filterMap.mp hb with ⟨e, _, hge⟩
    rcases (recipEntry_eq_some_iff _ _ _ _ _ _).mp hge with ⟨_, _, hdel, hre⟩
    have he2 : e = (2, sessionRbad) := by rw [← hre]
    subst he2
    rw [htv] at hdel
    have hmi : matchIdxs mgrBad sessionRbad "AAA1000" = [] := by
      unfold matchIdxs
      rw [netIds_sessionRbad]
      simp only [canonical_net_nil_false mgrBad rfl rfl]
      decide
    unfold claimDeliver at hdel
    rw [hmi] at hdel
    simp at hdel
  · have hlb : sessionS.loopback = false := rfl
    rw [hlb] at ht
    simp at ht

/-- C2 (amended/corrected): the claim holds once the default-state premise
is extended with the prefix condition it omits — R's channel-2 network
prefix must equal S's channel-0 prefix (canonical ids embed per-session
random prefixes) — and, for the exclusion case, R's other channels must
not collide with the sender's net. Then: with R active on channel 2,
(R, 2) is a recipient; with R active on channel 1 but channel-2 scan
enabled, (R, 2) is still a recipient; with neither, R is excluded. -/
theorem routing_same_freq_amended
    (sS sR : ℤ) (S R : Session) (now : ℚ)
    (hkey : sR ≠ sS)
    (hSa : S.active_channel = 0)
    (hSf : S.freqs.getD 0 0 = 100)
    (hRf : R.freqs.getD 2 0 = 100)
    (hpref : R.net_prefixes.getD 2 "" = S.net_prefixes.getD 0 "")
    (htrim : ∀ i ∈ [0, 1, 2, 3], pyStrip ((netIds R).getD i "") = (netIds R).getD i "")
    (htrimS : pyStrip ((netIds S).getD 0 "") = (netIds S).getD 0 "")
    (hothers : ∀ i ∈ [0, 1, 3], (netIds R).getD i "" ≠ (netIds S).getD 0 "")
    (htime : now - R.last_seen ≤ 15) :
    (R.active_channel = 2 →
      ((sR, R), 2) ∈ (audio_recipients_for (defaultMgr sS sR S R) now sS).1) ∧
    (R.active_channel = 1 → scanFlagAt R 2 = true →
      ((sR, R), 2) ∈ (audio_recipients_for (defaultMgr sS sR S R) now sS).1) ∧
    (R.active_channel ≠ 2 → scanFlagAt R 2 = false →
      ∀ j, ¬ ((sR, R), j) ∈ (audio_recipients_for (defaultMgr sS sR S R) now sS).1) := by
  have hcanon : ∀ x, canonical_net (defaultMgr sS sR S R) x = pyStrip x :=
    canonical_net_nil_false (defaultMgr sS sR S R) rfl rfl
  have hs : lookupSsrc (defaultMgr sS sR S R).by_ssrc sS = some S := by
    unfold lookupSsrc defaultMgr
    simp only [List.find?_cons, beq_self_eq_true]
    rfl
  have hclamp : clamp03 S.active_channel = 0 := by rw [hSa]; rfl
  have hS0 : (netIds S).getD 0 "" = S.net_prefixes.getD 0 "" ++ "1000" := by
    rw [netIds_getD S 0 (by omega), hSf, freqSuffix_100]
  have htgt : canonical_net (defaultMgr sS sR S R)
      ((netIds S).getD (clamp03 S.active_channel) "") =
      S.net_prefixes.getD 0 "" ++ "1000" := by
    rw [hclamp, hcanon, htrimS, hS0]
  have hnet : canonical_net (defaultMgr sS sR S R)
      ((netIds S).getD (clamp03 S.active_channel) "") ≠ "" := by
    rw [htgt]
    intro h
    have hlen := congrArg String.length h
    rw [String.length_append] at hlen
    have h4 : ("1000" : String).length = 4 := rfl
    have h0 : ("" : String).length = 0 := rfl
    rw [h4, h0] at hlen
    omega
  have hmemR : ((sR, R) : ℤ × Session) ∈ (defaultMgr sS sR S R).by_ssrc :=
    List.mem_cons_of_mem _ (List.mem_cons_self _ _)
  have h2eq : (netIds R).getD 2 "" = S.net_prefixes.getD 0 "" ++ "1000" := by
    rw [netIds_getD R 2 (by omega), hpref, hRf, freqSuffix_100]
  have hmi : matchIdxs (defaultMgr sS sR S R) R (canonical_net (defaultMgr sS sR S R)
      ((netIds S).getD (clamp03 S.active_channel) "")) = [2] := by
    rw [htgt]
    unfold matchIdxs
    rw [show List.range 4 = [0, 1, 2, 3] from rfl]
    have e0 : (canonical_net (defaultMgr sS sR S R) ((netIds R).getD 0 "") ==
        S.net_prefixes.getD 0 "" ++ "1000") = false := by
      rw [hcanon, htrim 0 (by decide)]
      refine beq_eq_false_iff_ne.mpr ?_
      rw [← hS0]
      exact hothers 0 (by decide)
    have e1 : (canonical_net (defaultMgr sS sR S R) ((netIds R).getD 1 "") ==
        S.net_prefixes.getD 0 "" ++ "1000") = false := by
      rw [hcanon, htrim 1 (by decide)]
      refine beq_eq_false_iff_ne.mpr ?_
      rw [← hS0]
      exact hothers 1 (by decide)
    have e2 : (canonical_net (defaultMgr sS sR S R) ((netIds R).getD 2 "") ==
        S.net_prefixes.getD 0 "" ++ "1000") = true := by
      rw [hcanon, htrim 2 (by decide), h2eq]
      exact beq_self_eq_true _
    have e3 : (canonical_net (defaultMgr sS sR S R) ((netIds R).getD 3 "") ==
        S.net_prefixes.getD 0 "" ++ "1000") = false := by
      rw [hcanon, htrim 3 (by decide)]
      refine beq_eq_false_iff_ne.mpr ?_
      rw [← hS0]
      exact hothers 3 (by decide)
    simp only [List.filter_cons, List.filter_nil, e0, e1, e2, e3]
    simp
  refine ⟨?_, ?_, ?_⟩
  · intro h2a
    rw [recips_mem_iff (defaultMgr sS sR S R) now sS S hs hnet sR R 2 hmemR hkey]
    refine ⟨htime, ?_⟩
    unfold claimDeliver
    rw [hmi]
    have hp : (R.active_channel == (2 : ℤ)) = true := by
      rw [h2a]
      decide
    simp [List.find?_cons, hp]
  · intro h1a hscan
    rw [recips_mem_iff (defaultMgr sS sR S R) now sS S hs hnet sR R 2 hmemR hkey]
    refine ⟨htime, ?_⟩
    unfold claimDeliver
    rw [hmi]
    have hp : (R.active_channel == (2 : ℤ)) = false := by
      rw [h1a]
      decide
    simp [List.find?_cons, hp, hscan]
  · intro hna hscan j hmem
    rw [recips_mem_iff (defaultMgr sS sR S R) now sS S hs hnet sR R j hmemR hkey] at hmem
    rcases hmem with ⟨_, hdel⟩
    unfold claimDeliver at hdel
    rw [hmi] at hdel
    have hp : (R.active_channel == (2 : ℤ)) = false :=
      beq_eq_false_iff_ne.mpr (fun hc => hna hc)
    simp [List.find?_cons, hp, hscan] at hdel

/-- Witness for `routing_same_freq_amended` at the concrete prefix-sharing
pair, exercising the active-channel case. -/
theorem routing_same_freq_amended_witness :
    ((2 : ℤ), sessionR) ∈ (defaultMgr 1 2 sessionS sessionR).by_ssrc ∧
    (((2 : ℤ), sessionR), 2) ∈ (audio_recipients_for (defaultMgr 1 2 sessionS sessionR) 100 1).1 :=
  ⟨List.mem_cons_of_mem _ (List.mem_cons_self _ _),
   (routing_same_freq_amended 1 2 sessionS sessionR 100 (by decide) rfl rfl rfl rfl
      (by simp only [netIds_sessionR]; decide)
      (by simp only [netIds_sessionS]; decide)
      (by simp only [netIds_sessionR, netIds_sessionS]; decide)
      (by rw [show sessionR.last_seen = (100 : ℚ) from rfl]; simp)).1 rfl⟩

/-- C8: in the client mix step, a collected frame tagged with channel
index c in 0..3 contributes nothing when c is not audible — not the
active channel and its scan flag not enabled (channel D's scan checkbox
being locked on) — and otherwise adds `sample * get_channel_volume(c)`
into the accumulator. -/
theorem mix_step_spec (st : MixState) (mix : List ℚ) (fr : RxFrame) (c : ℤ)
    (hc : fr.chan_idx = some c) (h0 : 0 ≤ c) (h3 : c < 4) :
    mixStep st mix fr =
      if c = st.active_chan ∨ scanFlagClient st c = true then
        addScaled mix fr.buf (get_channel_volume st c)
      else mix := by
  have hiff : channel_is_audible st c = true ↔
      (c = st.active_chan ∨ scanFlagClient st c = true) := by
    unfold channel_is_audible scanFlagClient
    by_cases hlt : c < 3
    · rw [if_pos ⟨h0, hlt⟩, if_pos hlt]
      simp [Bool.or_eq_true, beq_iff_eq]
    · have hc3 : c = 3 := by omega
      subst hc3
      rw [if_neg (by omega), if_neg (by omega)]
      simp
  simp only [mixStep, hc]
  by_cases h : channel_is_audible st c = true
  · rw [if_pos h, if_pos (hiff.mp h)]
  · rw [if_neg h, if_neg (fun hh => h (hiff.mpr hh))]

/-- Witness for `mix_step_spec`: active channel 0, no scanning, a frame
tagged with channel 1 (not audible, hence dropped). -/
theorem mix_step_spec_witness :
    mixStep ⟨0, [false, false, false], [100, 100, 100], 50⟩ [0, 0] ⟨[1, 1], some 1⟩ =
      if (1 : ℤ) = (⟨0, [false, false, false], [100, 100, 100], 50⟩ : MixState).active_chan ∨
          scanFlagClient ⟨0, [false, false, false], [100, 100, 100], 50⟩ 1 = true then
        addScaled [0, 0] [1, 1]
          (get_channel_volume ⟨0, [false, false, false], [100, 100, 100], 50⟩ 1)
      else [0, 0] :=
  mix_step_spec ⟨0, [false, false, false], [100, 100, 100], 50⟩ [0, 0] ⟨[1, 1], some 1⟩ 1
    rfl (by decide) (by decide)
